import Mathlib

/-!
Verification of the glyphforge geometry and polygon-expansion pipeline.

The Python source is shallowly embedded:
* exact arithmetic is modelled over `ℚ` wherever the source computes with
  rational float expressions (`geometry.Point`, `bezier`, `validation`,
  `style`, the clipper polytree walk);
* constructions whose exact value involves a square root
  (`Point.normalized`, the gradient rail builder of `expansion.py`) are
  modelled over `ℝ` with `Real.sqrt` standing for `math.hypot`;
* the external pyclipper boolean engine and the hash/Mersenne-Twister
  internals of `rng.py` are abstracted as function parameters, while the
  glyphforge code around them is embedded faithfully.
-/

set_option maxHeartbeats 1600000

namespace Glyphforge

/-- 2D point with exact rational coordinates (source: `geometry.Point`). -/
@[ext]
structure Pt where
  x : ℚ
  y : ℚ
deriving DecidableEq

instance : Add Pt := ⟨fun p q => ⟨p.x + q.x, p.y + q.y⟩⟩

instance : Sub Pt := ⟨fun p q => ⟨p.x - q.x, p.y - q.y⟩⟩

instance : Neg Pt := ⟨fun p => ⟨-p.x, -p.y⟩⟩

/-- Scalar multiple of a point (source: `Point.__mul__` / `__rmul__`). -/
def sm (a : ℚ) (p : Pt) : Pt := ⟨a * p.x, a * p.y⟩

/-- Linear interpolation (source: `Point.lerp`). -/
def Pt.lerp (p q : Pt) (t : ℚ) : Pt :=
  ⟨p.x + (q.x - p.x) * t, p.y + (q.y - p.y) * t⟩

/-- 2D cross product z-component (source: `Point.cross`). -/
def Pt.cross (p q : Pt) : ℚ := p.x * q.y - p.y * q.x

/-- Squared Euclidean length; `Point.length()` is `Real.sqrt` of this.
Comparisons of lengths against nonnegative thresholds are encoded on
squares, which is exact. -/
def sqLen (p : Pt) : ℚ := p.x ^ 2 + p.y ^ 2

/-- A single cubic bezier segment (source: `glyph.CubicBezier`). -/
@[ext]
structure CubicBezier where
  p0 : Pt
  p1 : Pt
  p2 : Pt
  p3 : Pt
deriving DecidableEq

/-- Cubic Bernstein evaluation at parameter t (source: `bezier.evaluate`). -/
def evaluate (b : CubicBezier) (t : ℚ) : Pt :=
  let u := 1 - t
  sm (u * u * u) b.p0 + sm (3 * u * u * t) b.p1 +
    sm (3 * u * t * t) b.p2 + sm (t * t * t) b.p3

/-- De Casteljau split at parameter t (source: `bezier.split`). -/
def split (b : CubicBezier) (t : ℚ) : CubicBezier × CubicBezier :=
  let p01 := b.p0.lerp b.p1 t
  let p12 := b.p1.lerp b.p2 t
  let p23 := b.p2.lerp b.p3 t
  let p012 := p01.lerp p12 t
  let p123 := p12.lerp p23 t
  let p0123 := p012.lerp p123 t
  (⟨b.p0, p01, p012, p0123⟩, ⟨p0123, p123, p23, b.p3⟩)

/-- Straight-line bezier constructor (source: `bezier.make_line`). -/
def makeLine (p0 p1 : Pt) : CubicBezier :=
  ⟨p0, p0.lerp p1 (1 / 3), p0.lerp p1 (2 / 3), p1⟩

/-- Arc-like bezier constructor (source: `bezier.make_arc`). -/
def makeArc (start stop : Pt) (bulge : ℚ) : CubicBezier :=
  let chord := stop - start
  let offset := sm bulge ⟨-chord.y, chord.x⟩
  ⟨start, start.lerp stop (1 / 3) + sm (8 / 10) offset,
    start.lerp stop (2 / 3) + sm (8 / 10) offset, stop⟩

/-- S-curve bezier constructor (source: `bezier.make_s_curve`). -/
def makeSCurve (start stop : Pt) (amplitude : ℚ) : CubicBezier :=
  let chord := stop - start
  let perpc : Pt := ⟨-chord.y, chord.x⟩
  ⟨start, start.lerp stop (1 / 3) + sm amplitude perpc,
    start.lerp stop (2 / 3) - sm amplitude perpc, stop⟩

/-- Encodes `_flatness(bez) <= tolerance` (source: `bezier._flatness` and the
test in `_flatten_recursive`) exactly.  The first disjunct is the
degenerate-chord branch (`chord_len < 1e-12`, encoded on squares), whose
flatness is `max |p1-p0| |p2-p0|`; the second is the normal branch, whose
flatness is the max distance of `p1`, `p2` from the chord.  Every
comparison of a nonnegative square root against `t` is rewritten as
`0 ≤ t ∧ square ≤ t ^ 2`, and the division by the chord length is cleared
by multiplying through by the (positive) squared chord length — all exact
over ℚ. -/
def flatLe (b : CubicBezier) (tol : ℚ) : Prop :=
  (sqLen (b.p3 - b.p0) < (1e-12 : ℚ) ^ 2 ∧ 0 ≤ tol ∧
    max (sqLen (b.p1 - b.p0)) (sqLen (b.p2 - b.p0)) ≤ tol ^ 2) ∨
  (¬ sqLen (b.p3 - b.p0) < (1e-12 : ℚ) ^ 2 ∧ 0 ≤ tol ∧
    max ((Pt.cross (b.p3 - b.p0) (b.p1 - b.p0)) ^ 2)
        ((Pt.cross (b.p3 - b.p0) (b.p2 - b.p0)) ^ 2)
      ≤ tol ^ 2 * sqLen (b.p3 - b.p0))

instance (b : CubicBezier) (tol : ℚ) : Decidable (flatLe b tol) := by
  unfold flatLe
  infer_instance

/-- Recursive flattening (source: `bezier._flatten_recursive`).  The source
recurses without an explicit bound; `fuel` bounds the recursion depth in
this model, and an exhausted budget emits the endpoint like the flat case. -/
def flattenRec : ℕ → CubicBezier → ℚ → List Pt
  | 0, b, _ => [b.p3]
  | fuel + 1, b, tol =>
    if flatLe b tol then [b.p3]
    else
      flattenRec fuel (split b (1 / 2)).1 tol ++
        flattenRec fuel (split b (1 / 2)).2 tol

/-- Adaptive flattening to a polyline (source: `bezier.flatten`). -/
def flattenQ (fuel : ℕ) (b : CubicBezier) (tol : ℚ) : List Pt :=
  b.p0 :: flattenRec fuel b tol

/-- Concrete bezier used to instantiate the C1 theorem. -/
def bez0 : CubicBezier := ⟨⟨0, 0⟩, ⟨1, 2⟩, ⟨3, 1⟩, ⟨4, 0⟩⟩

/-- A `make_line` curve whose chord is nonzero but shorter than the 1e-12
degeneracy threshold of `_flatness`. -/
def lineTiny : CubicBezier := makeLine ⟨0, 0⟩ ⟨1 / 10 ^ 13, 0⟩

/-- Sum of `x_i*y_{i+1} - x_{i+1}*y_i` over consecutive (non-wrapping)
pairs; `Pt.cross p q` is exactly one term of the shoelace loop body. -/
def pathSum : List Pt → ℚ
  | [] => 0
  | [_] => 0
  | p :: q :: r => Pt.cross p q + pathSum (q :: r)

/-- The full shoelace loop `Σ_{i<n} (x_i*y_{(i+1)%n} - x_{(i+1)%n}*y_i)`:
consecutive pairs plus the wrap-around term from the last point back to
the first (for `n ≤ 1` both parts vanish, as in the source loop). -/
def cyclicSum (l : List Pt) : ℚ :=
  pathSum l + Pt.cross (l.getLastD ⟨0, 0⟩) (l.headD ⟨0, 0⟩)

/-- Signed polygon area (source: `expansion._signed_area` and
`validation._polygon_area`, which implement the same formula): 0 for
fewer than 3 points, otherwise the shoelace sum divided by 2. -/
def signedArea (l : List Pt) : ℚ :=
  if l.length < 3 then 0 else cyclicSum l / 2

/-- Scale a clipper-coordinate path back to glyph space (source:
`expansion._from_clipper`, `CLIPPER_SCALE = 1000`). -/
def fromClipper (path : List Pt) : List Pt :=
  path.map fun p => ⟨p.x / 1000, p.y / 1000⟩

/-- Winding normalization applied to one polytree contour (source: the
branch on `node.IsHole` in `expansion._collect_polytree`): holes with
positive area and outers with negative area are reversed. -/
def normalizeContour (isHole : Bool) (c : List Pt) : List Pt :=
  if isHole then (if 0 < signedArea c then c.reverse else c)
  else (if signedArea c < 0 then c.reverse else c)

/-- A pyclipper PolyTree node: a contour (empty at the root), a hole flag,
and child nodes. -/
inductive PolyNode where
  | mk (contour : List Pt) (isHole : Bool) (childs : List PolyNode)

/-- Recursive polytree walk (source: `expansion._collect_polytree`): emit
the winding-normalized, descaled contour of every node with a nonempty
contour, current node first, then all children in order. -/
def collectPolytree : PolyNode → List (List Pt)
  | .mk c isHole kids =>
    (if c ≠ [] then [fromClipper (normalizeContour isHole c)] else []) ++
      (kids.attach.map fun x => collectPolytree x.1).flatten
decreasing_by
  have hm := List.sizeOf_lt_of_mem x.2
  simp only [PolyNode.mk.sizeOf_spec]
  omega

/-- A node of a polytree, as (contour, hole flag), restricted to nodes
with a nonempty contour — exactly the nodes whose contour the walk emits. -/
inductive EmittedFrom : PolyNode → List Pt → Bool → Prop
  | here (c : List Pt) (isHole : Bool) (kids : List PolyNode) (h : c ≠ []) :
      EmittedFrom (.mk c isHole kids) c isHole
  | child (c0 : List Pt) (h0 : Bool) (kids : List PolyNode) (n : PolyNode)
      (c : List Pt) (isHole : Bool) (hn : n ∈ kids)
      (he : EmittedFrom n c isHole) : EmittedFrom (.mk c0 h0 kids) c isHole

/-- Axis-aligned bounding box (source: `geometry.BoundingBox`). -/
structure BBox where
  xMin : ℚ
  yMin : ℚ
  xMax : ℚ
  yMax : ℚ

/-- Bounding box area, `width * height` (source: `BoundingBox.area`). -/
def bbArea (b : BBox) : ℚ := (b.xMax - b.xMin) * (b.yMax - b.yMin)

/-- Filled outline of a glyph (source: `glyph.Outline`). -/
structure Outline where
  polygons : List (List Pt)

/-- Ink-coverage estimate (source: `validation.estimate_ink_coverage`):
0 when the box area is below 1e-12, otherwise the sum of absolute
shoelace polygon areas over the box area, clamped at 1. -/
def estimateInk (o : Outline) (bb : BBox) : ℚ :=
  if bbArea bb < 1e-12 then 0
  else min 1 ((o.polygons.map fun poly => |signedArea poly|).sum / bbArea bb)

/-- Concrete polytree used to instantiate the C3 theorem: a single outer
node carrying a clockwise (negative-area) triangle in clipper
coordinates. -/
def triNode : PolyNode :=
  .mk [⟨0, 0⟩, ⟨0, 1000⟩, ⟨1000, 0⟩] false []

/-- Concrete outline (one CCW unit square) for the C10 witness. -/
def outline0 : Outline := ⟨[[⟨0, 0⟩, ⟨2, 0⟩, ⟨2, 2⟩, ⟨0, 2⟩]]⟩

/-- Concrete bounding box for the C10 witness. -/
def bbox0 : BBox := ⟨0, 0, 1, 1⟩

/-- Seeded RNG state (source: `rng.SeededRNG`): the base seed, the domain
path string, and the position in this instance's own stream.  The
SHA-256 derivation of the stream seed and the Mersenne Twister stream
itself are external to the forking logic and are abstracted as the
`derive` and `mt` parameters of `outputs`. -/
structure SRng where
  baseSeed : ℤ
  domain : String
  consumed : ℕ

/-- Constructor (source: `SeededRNG.__init__`): a fresh stream at
position 0 keyed by `(seed, domain)`. -/
def mkRng (seed : ℤ) (dom : String) : SRng := ⟨seed, dom, 0⟩

/-- Domain fork (source: `SeededRNG.fork`): a fresh child built only from
the base seed and the extended path; the parent's stream position is not
consulted and not modified. -/
def forkRng (r : SRng) (sub : String) : SRng :=
  mkRng r.baseSeed (r.domain ++ "/" ++ sub)

/-- One draw advances only this instance's own stream position. -/
def rngNext (r : SRng) : SRng := ⟨r.baseSeed, r.domain, r.consumed + 1⟩

/-- Draw (and discard) k values from a stream. -/
def drawN : ℕ → SRng → SRng
  | 0, r => r
  | k + 1, r => drawN k (rngNext r)

/-- The next n values observable from a stream, where `derive` models the
SHA-256 seed derivation from `(seed, domain)` and `mt` models the
Mersenne-Twister output sequence of a derived seed. -/
def outputs (derive : ℤ → String → ℕ) (mt : ℕ → ℕ → ℤ)
    (r : SRng) (n : ℕ) : List ℤ :=
  (List.range n).map fun i => mt (derive r.baseSeed r.domain) (r.consumed + i)

/-- Stroke width policy (source: `style.StrokeWidthMode`). -/
inductive StrokeWidthMode where
  | static
  | gradient
deriving DecidableEq

/-- Cap style (source: `style.CapStyle`). -/
inductive CapStyle where
  | round
  | flat
deriving DecidableEq

/-- Join style (source: `style.JoinStyle`). -/
inductive JoinStyle where
  | round
  | miter
  | bevel
deriving DecidableEq

/-- Serif style (source: `style.SerifStyle`). -/
inductive SerifStyle where
  | none
  | slab
  | wedge
  | flare
deriving DecidableEq

/-- All parameters defining a writing system's visual identity (source:
`style.AlphabetStyle`; field defaults are the source's dataclass
defaults, written as exact rationals).  Source snake_case names are
camel-cased; `strokeTaper` is the source's stroke taper ratio field,
`cpJitter` the control point jitter, `aspectVariance` the aspect ratio
variance. -/
structure AlphabetStyle where
  xHeight : ℚ := 0.55
  capHeight : ℚ := 0.75
  descenderDepth : ℚ := 0.25
  glyphWidth : ℚ := 0.6
  strokeWidth : ℚ := 0.08
  strokeWidthMode : StrokeWidthMode := .static
  strokeTaper : ℚ := 0.3
  strokeAngle : ℚ := 0
  capStyle : CapStyle := .round
  joinStyle : JoinStyle := .round
  curvatureBias : ℚ := 0.5
  loopProb : ℚ := 0.1
  inflectionFreq : ℚ := 0.3
  strokeCountMean : ℚ := 2.5
  strokeCountSigma : ℚ := 0.8
  componentReuse : ℚ := 0.3
  connectivity : ℚ := 0.5
  symmetryBias : ℚ := 0.2
  serifStyle : SerifStyle := .none
  serifSize : ℚ := 0.04
  dotFreq : ℚ := 0.1
  barFreq : ℚ := 0.05
  flourishProb : ℚ := 0.05
  entryZone : ℚ := 0.3
  exitZone : ℚ := 0.7
  horizontalBias : ℚ := 0
  baselineJitter : ℚ := 0.02
  scaleJitter : ℚ := 0.03
  rotationJitter : ℚ := 0.02
  aspectVariance : ℚ := 0.05
  cpJitter : ℚ := 0.05
  anchorJitter : ℚ := 0.03

/-- The default style, all fields at their dataclass defaults. -/
def defaultStyle : AlphabetStyle := {}

/-- The 32 known style field names (source: `fields(AlphabetStyle)`). -/
inductive FieldName where
  | xHeight
  | capHeight
  | descenderDepth
  | glyphWidth
  | strokeWidth
  | strokeWidthMode
  | strokeTaper
  | strokeAngle
  | capStyle
  | joinStyle
  | curvatureBias
  | loopProb
  | inflectionFreq
  | strokeCountMean
  | strokeCountSigma
  | componentReuse
  | connectivity
  | symmetryBias
  | serifStyle
  | serifSize
  | dotFreq
  | barFreq
  | flourishProb
  | entryZone
  | exitZone
  | horizontalBias
  | baselineJitter
  | scaleJitter
  | rotationJitter
  | aspectVariance
  | cpJitter
  | anchorJitter
deriving DecidableEq

/-- An override value: a number, a raw string (to be parsed for the four
enum-typed fields, as in the source's isinstance checks), or an enum. -/
inductive OVal where
  | num (q : ℚ)
  | str (s : String)
  | wm (m : StrokeWidthMode)
  | cap (c : CapStyle)
  | join (j : JoinStyle)
  | serif (v : SerifStyle)
deriving DecidableEq

/-- Value conversion performed by `apply_overrides` (source: the
string-to-enum `isinstance` branches).  For the four enum-typed fields a
string is parsed by enum value (`ValueError` on an unknown string is
`none`); for every other known field a numeric value is kept as-is.  A
value whose kind does not fit the field is rejected here (the dynamic
source would store it unchecked; the claim only quantifies over valid
values). -/
def convert : FieldName → OVal → Option OVal
  | .strokeWidthMode, .str s =>
    if s = "static" then some (.wm .static)
    else if s = "gradient" then some (.wm .gradient)
    else none
  | .strokeWidthMode, .wm m => some (.wm m)
  | .strokeWidthMode, _ => none
  | .capStyle, .str s =>
    if s = "round" then some (.cap .round)
    else if s = "flat" then some (.cap .flat)
    else none
  | .capStyle, .cap c => some (.cap c)
  | .capStyle, _ => none
  | .joinStyle, .str s =>
    if s = "round" then some (.join .round)
    else if s = "miter" then some (.join .miter)
    else if s = "bevel" then some (.join .bevel)
    else none
  | .joinStyle, .join j => some (.join j)
  | .joinStyle, _ => none
  | .serifStyle, .str s =>
    if s = "none" then some (.serif .none)
    else if s = "slab" then some (.serif .slab)
    else if s = "wedge" then some (.serif .wedge)
    else if s = "flare" then some (.serif .flare)
    else none
  | .serifStyle, .serif v => some (.serif v)
  | .serifStyle, _ => none
  | _, .num q => some (.num q)
  | _, _ => none

/-- Set one field of a style record (one keyword of the source's
`dataclasses.replace` call). -/
def setField (s : AlphabetStyle) : FieldName → OVal → AlphabetStyle
  | .xHeight, .num q => { s with xHeight := q }
  | .capHeight, .num q => { s with capHeight := q }
  | .descenderDepth, .num q => { s with descenderDepth := q }
  | .glyphWidth, .num q => { s with glyphWidth := q }
  | .strokeWidth, .num q => { s with strokeWidth := q }
  | .strokeWidthMode, .wm m => { s with strokeWidthMode := m }
  | .strokeTaper, .num q => { s with strokeTaper := q }
  | .strokeAngle, .num q => { s with strokeAngle := q }
  | .capStyle, .cap c => { s with capStyle := c }
  | .joinStyle, .join j => { s with joinStyle := j }
  | .curvatureBias, .num q => { s with curvatureBias := q }
  | .loopProb, .num q => { s with loopProb := q }
  | .inflectionFreq, .num q => { s with inflectionFreq := q }
  | .strokeCountMean, .num q => { s with strokeCountMean := q }
  | .strokeCountSigma, .num q => { s with strokeCountSigma := q }
  | .componentReuse, .num q => { s with componentReuse := q }
  | .connectivity, .num q => { s with connectivity := q }
  | .symmetryBias, .num q => { s with symmetryBias := q }
  | .serifStyle, .serif v => { s with serifStyle := v }
  | .serifSize, .num q => { s with serifSize := q }
  | .dotFreq, .num q => { s with dotFreq := q }
  | .barFreq, .num q => { s with barFreq := q }
  | .flourishProb, .num q => { s with flourishProb := q }
  | .entryZone, .num q => { s with entryZone := q }
  | .exitZone, .num q => { s with exitZone := q }
  | .horizontalBias, .num q => { s with horizontalBias := q }
  | .baselineJitter, .num q => { s with baselineJitter := q }
  | .scaleJitter, .num q => { s with scaleJitter := q }
  | .rotationJitter, .num q => { s with rotationJitter := q }
  | .aspectVariance, .num q => { s with aspectVariance := q }
  | .cpJitter, .num q => { s with cpJitter := q }
  | .anchorJitter, .num q => { s with anchorJitter := q }
  | _, _ => s

/-- Read one field of a style record as an override value. -/
def getField (s : AlphabetStyle) : FieldName → OVal
  | .xHeight => .num s.xHeight
  | .capHeight => .num s.capHeight
  | .descenderDepth => .num s.descenderDepth
  | .glyphWidth => .num s.glyphWidth
  | .strokeWidth => .num s.strokeWidth
  | .strokeWidthMode => .wm s.strokeWidthMode
  | .strokeTaper => .num s.strokeTaper
  | .strokeAngle => .num s.strokeAngle
  | .capStyle => .cap s.capStyle
  | .joinStyle => .join s.joinStyle
  | .curvatureBias => .num s.curvatureBias
  | .loopProb => .num s.loopProb
  | .inflectionFreq => .num s.inflectionFreq
  | .strokeCountMean => .num s.strokeCountMean
  | .strokeCountSigma => .num s.strokeCountSigma
  | .componentReuse => .num s.componentReuse
  | .connectivity => .num s.connectivity
  | .symmetryBias => .num s.symmetryBias
  | .serifStyle => .serif s.serifStyle
  | .serifSize => .num s.serifSize
  | .dotFreq => .num s.dotFreq
  | .barFreq => .num s.barFreq
  | .flourishProb => .num s.flourishProb
  | .entryZone => .num s.entryZone
  | .exitZone => .num s.exitZone
  | .horizontalBias => .num s.horizontalBias
  | .baselineJitter => .num s.baselineJitter
  | .scaleJitter => .num s.scaleJitter
  | .rotationJitter => .num s.rotationJitter
  | .aspectVariance => .num s.aspectVariance
  | .cpJitter => .num s.cpJitter
  | .anchorJitter => .num s.anchorJitter

/-- Override application (source: `style.apply_overrides`): convert each
entry (unknown field names are unrepresentable here; invalid values give
`none`, the source's `ValueError`), then apply the converted values to a
copy of the record. -/
def apply_overrides (s : AlphabetStyle) :
    List (FieldName × OVal) → Option AlphabetStyle
  | [] => some s
  | (f, v) :: rest =>
    match convert f v with
    | Option.none => Option.none
    | some fv => apply_overrides (setField s f fv) rest

/-- An anchor point of a stroke spec in normalised glyph space (source:
`templates.AnchorPoint`). -/
structure AnchorPt where
  x : ℚ
  y : ℚ
  bulge : ℚ

/-- Abstract randomness for the skeleton generator: a stream of unit
samples and the current position.  `gauss(mu, sigma)` is modelled as
`mu + sigma * sample` and `coin(p)` as the source's `random() < p`; the
chained-segments claim holds for every stream. -/
structure JRng where
  vals : ℕ → ℚ
  idx : ℕ

/-- Draw a Gaussian sample (source: `SeededRNG.gauss`), consuming one
stream position. -/
def jGauss (mu sigma : ℚ) (r : JRng) : ℚ × JRng :=
  (mu + sigma * r.vals r.idx, ⟨r.vals, r.idx + 1⟩)

/-- Draw a boolean with probability p (source: `SeededRNG.coin`,
`random() < p`), consuming one stream position. -/
def jCoin (p : ℚ) (r : JRng) : Bool × JRng :=
  (decide (r.vals r.idx < p), ⟨r.vals, r.idx + 1⟩)

/-- Clamp to [0,1] (source: `max(0.0, min(1.0, ·))` in
`_spec_to_stroke`). -/
def clamp01 (q : ℚ) : ℚ := max 0 (min 1 q)

/-- Anchor jitter loop of `_spec_to_stroke`: each anchor's coordinates get
independent Gaussian noise scaled by `anchor_jitter`, clamped to [0,1]. -/
def jitterAnchors (aj : ℚ) : List AnchorPt → JRng → List Pt × JRng
  | [], r => ([], r)
  | a :: rest, r =>
    let (g1, r1) := jGauss 0 aj r
    let (g2, r2) := jGauss 0 aj r1
    let (ps, r3) := jitterAnchors aj rest r2
    (⟨clamp01 (a.x + g1), clamp01 (a.y + g2)⟩ :: ps, r3)

/-- Scale normalised points to glyph metric space (source:
`_scale_to_metrics`; the computed `y_offset` is unused there, as here). -/
def scaleToMetrics (s : AlphabetStyle) (pts : List Pt) : List Pt :=
  pts.map fun p => ⟨p.x * s.glyphWidth, p.y * (s.capHeight + s.descenderDepth)⟩

/-- Control-point jitter (source: `_jitter_control_points`): four Gaussian
draws perturb `p1` and `p2` only; `p0` and `p3` are kept. -/
def jitterCtrl (seg : CubicBezier) (amount : ℚ) (r : JRng) :
    CubicBezier × JRng :=
  let (j1, r1) := jGauss 0 amount r
  let (j2, r2) := jGauss 0 amount r1
  let (j3, r3) := jGauss 0 amount r2
  let (j4, r4) := jGauss 0 amount r3
  (⟨seg.p0, ⟨seg.p1.x + j1, seg.p1.y + j2⟩,
    ⟨seg.p2.x + j3, seg.p2.y + j4⟩, seg.p3⟩, r4)

/-- Build one bezier segment between consecutive scaled anchors (source:
the per-segment branch of `_spec_to_stroke`): near-zero effective bulge
gives a slight random arc; otherwise, when `curvature_bias > 0.5`, a coin
with probability `inflection_frequency * 0.3` picks an s-curve variant
(the coin is only drawn in that case, as in the source's short-circuit
`and`); otherwise a plain arc.  Control points are then jittered. -/
def buildSeg (s : AlphabetStyle) (p0 p1 : Pt) (bulge : ℚ) (r : JRng) :
    CubicBezier × JRng :=
  let eb := bulge * (0.3 + 0.7 * s.curvatureBias)
  if |eb| < 0.01 then
    let (g, r1) := jGauss 0 (s.cpJitter * 0.5) r
    jitterCtrl (makeArc p0 p1 (g * s.curvatureBias)) s.cpJitter r1
  else if 0.5 < s.curvatureBias then
    let (c, r1) := jCoin (s.inflectionFreq * 0.3) r
    if c then jitterCtrl (makeSCurve p0 p1 (eb * 0.7)) s.cpJitter r1
    else jitterCtrl (makeArc p0 p1 eb) s.cpJitter r1
  else jitterCtrl (makeArc p0 p1 eb) s.cpJitter r

/-- Segment-building loop of `_spec_to_stroke`: one segment per
consecutive pair of scaled points, with the bulge of the pair's first
anchor. -/
def buildSegs (s : AlphabetStyle) :
    List Pt → List AnchorPt → JRng → List CubicBezier
  | p :: q :: rest, a :: ancs, r =>
    let (seg, r1) := buildSeg s p q a.bulge r
    seg :: buildSegs s (q :: rest) ancs r1
  | _, _, _ => []

/-- One pen stroke: a sequence of bezier segments (source: `glyph.Stroke`). -/
structure Stroke where
  segments : List CubicBezier

/-- Convert a stroke spec to a stroke (source: `_spec_to_stroke`): jitter
the anchors, scale to metrics, then build the chained segments. -/
def specToStroke (s : AlphabetStyle) (anchors : List AnchorPt) (r : JRng) :
    Stroke :=
  let (jittered, r1) := jitterAnchors s.anchorJitter anchors r
  ⟨buildSegs s (scaleToMetrics s jittered) anchors r1⟩

/-- A decorative element (source: `glyph.Decoration`; the optional shape
point list is irrelevant to the claims and omitted). -/
structure Decoration where
  kind : String
  position : Pt
  size : ℚ
  angle : ℚ

/-- Centre-line skeleton of one glyph (source: `glyph.Skeleton`). -/
structure Skeleton where
  strokes : List Stroke
  decorations : List Decoration

/-- Truncate toward zero, Python's `int()` on a float. -/
def qTrunc (q : ℚ) : ℤ := if q < 0 then ⌈q⌉ else ⌊q⌋

/-- Scale a polygon into clipper integer coordinates (source:
`expansion._to_clipper`, `CLIPPER_SCALE = 1000`). -/
def toClipper (poly : List Pt) : List Pt :=
  poly.map fun p => ⟨(qTrunc (p.x * 1000) : ℚ), (qTrunc (p.y * 1000) : ℚ)⟩

/-- Union of polygons via the external clipper engine (source:
`StrokeExpander._union_polygons`).  `clipperExec` abstracts
`Pyclipper.Execute2` (returning a polytree or raising), `addOk` abstracts
`AddPath` succeeding; paths of fewer than 3 points and paths whose
`AddPath` fails are skipped.  A raising `Execute2` or an empty collected
result falls back to the un-unioned input. -/
def unionPolygons (clipperExec : List (List Pt) → Except Unit PolyNode)
    (addOk : List Pt → Bool) (polygons : List (List Pt)) : List (List Pt) :=
  let paths := (polygons.map toClipper).filter
    fun cp => decide (3 ≤ cp.length) && addOk cp
  match clipperExec paths with
  | .error _ => polygons
  | .ok tree =>
    let result := collectPolytree tree
    if result = [] then polygons else result

/-- Skeleton expansion shell (source: `StrokeExpander.expand_skeleton`):
collect per-stroke and per-decoration polygons, then union them when
there is more than one.  The per-stroke and per-decoration expansions are
abstracted as parameters; the claim concerns only the union fallback. -/
def expandSkeleton (expandStroke : Stroke → List (List Pt))
    (expandDec : Decoration → List (List Pt))
    (clipperExec : List (List Pt) → Except Unit PolyNode)
    (addOk : List Pt → Bool) (skel : Skeleton) : Outline :=
  let allPolys := (skel.strokes.map expandStroke).flatten ++
    (skel.decorations.map expandDec).flatten
  ⟨if 1 < allPolys.length then unionPolygons clipperExec addOk allPolys
    else allPolys⟩

/-- Concrete anchors for the C6 witness. -/
def anchors3 : List AnchorPt := [⟨0, 0, 0⟩, ⟨1 / 2, 1 / 2, 1⟩, ⟨1, 0, 0⟩]

/-- The all-zeros sample stream for the C6 witness. -/
def zeroRng : JRng := ⟨fun _ => 0, 0⟩

/-- Default bezier used as the out-of-range value of `List.getD`. -/
def cbD : CubicBezier := ⟨⟨0, 0⟩, ⟨0, 0⟩, ⟨0, 0⟩, ⟨0, 0⟩⟩

/-- Concrete triangle polygon for the C4 witness. -/
def tri4 : List Pt := [⟨0, 0⟩, ⟨1, 0⟩, ⟨0, 1⟩]

/-- Stroke expansion stub for the C4 witness: every stroke yields one
triangle. -/
def expandStroke0 : Stroke → List (List Pt) := fun _ => [tri4]

/-- Decoration expansion stub for the C4 witness. -/
def expandDec0 : Decoration → List (List Pt) := fun _ => []

/-- A clipper engine that always raises, for the C4 witness. -/
def execFail : List (List Pt) → Except Unit PolyNode := fun _ => .error ()

/-- Concrete two-stroke skeleton for the C4 witness. -/
def skel0 : Skeleton := ⟨[⟨[]⟩, ⟨[]⟩], []⟩

noncomputable section

/-- 2D point with real coordinates, used for the constructions whose exact
value involves a square root (`Point.normalized`, distances, the gradient
rail builder); `Real.sqrt` stands for `math.hypot`. -/
@[ext]
structure PtR where
  x : ℝ
  y : ℝ

instance : Add PtR := ⟨fun p q => ⟨p.x + q.x, p.y + q.y⟩⟩

instance : Sub PtR := ⟨fun p q => ⟨p.x - q.x, p.y - q.y⟩⟩

/-- Scalar multiple (source: `Point.__mul__`). -/
def smR (a : ℝ) (p : PtR) : PtR := ⟨a * p.x, a * p.y⟩

/-- Euclidean length (source: `Point.length`, `math.hypot`). -/
noncomputable def lenR (p : PtR) : ℝ := Real.sqrt (p.x ^ 2 + p.y ^ 2)

/-- Unit direction with degenerate cutoff (source: `Point.normalized`):
vectors of length below 1e-12 give the zero vector. -/
noncomputable def normalizedR (p : PtR) : PtR :=
  if lenR p < 1e-12 then ⟨0, 0⟩ else ⟨p.x / lenR p, p.y / lenR p⟩

/-- Distance between points (source: `Point.distance_to`). -/
noncomputable def distR (p q : PtR) : ℝ := lenR (q - p)

/-- The direction vector used for the local normal at polyline vertex `i`
(source: the `if i == 0 / elif i == n - 1 / else` branch shared by
`_build_gradient_outline` and `_fallback_outline`): towards the next
point at the first vertex, from the previous point at the last vertex,
spanning the two neighbours at interior vertices. -/
def localDirection (poly : List PtR) (i : ℕ) : PtR :=
  if i = 0 then poly.getD 1 ⟨0, 0⟩ - poly.getD 0 ⟨0, 0⟩
  else if i = poly.length - 1 then
    poly.getD (poly.length - 1) ⟨0, 0⟩ - poly.getD (poly.length - 2) ⟨0, 0⟩
  else poly.getD (i + 1) ⟨0, 0⟩ - poly.getD (i - 1) ⟨0, 0⟩

/-- The local normal at polyline vertex `i` (source:
`Point(-direction.y, direction.x).normalized()` in
`_build_gradient_outline` and `_fallback_outline`): the normalized
90-degree rotation of the local direction. -/
noncomputable def localNormal (poly : List PtR) (i : ℕ) : PtR :=
  normalizedR ⟨-(localDirection poly i).y, (localDirection poly i).x⟩

/-- Tail of the cumulative arc-length list (the source's
`lengths.append(lengths[-1] + distance)` loop), carrying the previous
point and the running sum. -/
noncomputable def cumFrom (prev : PtR) (acc : ℝ) : List PtR → List ℝ
  | [] => []
  | q :: rest => (acc + distR prev q) :: cumFrom q (acc + distR prev q) rest

/-- Cumulative arc lengths of a polyline, starting at 0 (source: the
`lengths` list in `_build_gradient_outline`). -/
noncomputable def cumLengthsR : List PtR → List ℝ
  | [] => [0]
  | p :: rest => 0 :: cumFrom p 0 rest

/-- Total polyline length, `lengths[-1]` in the source. -/
noncomputable def totalLenR (poly : List PtR) : ℝ :=
  (cumLengthsR poly).getLastD 0

/-- The half-width applied at vertex `i` (source: the `width` variable of
`_build_gradient_outline`): the full width interpolates linearly from
`stroke_width` at arc-length fraction 0 to
`stroke_width * stroke_taper_ratio` at 1, and is halved before being
applied along the normal. -/
noncomputable def gradHalfWidth (sw tr : ℝ) (poly : List PtR) (i : ℕ) : ℝ :=
  (sw + (sw * tr - sw) * ((cumLengthsR poly).getD i 0 / totalLenR poly)) / 2

/-- Gradient (calligraphic) stroke outline (source:
`_build_gradient_outline`): fewer than 2 points or total length below
1e-12 return the polyline unchanged; otherwise the left rail (vertices
offset by `+normal * width`) is traversed start-to-end, followed by the
right rail (`-normal * width`) end-to-start, closing the polygon. -/
noncomputable def buildGradientOutline (sw tr : ℝ) (poly : List PtR) :
    List PtR :=
  if poly.length < 2 then poly
  else if totalLenR poly < 1e-12 then poly
  else
    ((List.range poly.length).map fun i =>
      poly.getD i ⟨0, 0⟩ + smR (gradHalfWidth sw tr poly i) (localNormal poly i)) ++
    (((List.range poly.length).map fun i =>
      poly.getD i ⟨0, 0⟩ - smR (gradHalfWidth sw tr poly i) (localNormal poly i)).reverse)

/-- Fallback rail outline (source: `_fallback_outline`): parallel rails at
half the stroke width on each side, right rail reversed. -/
noncomputable def fallbackOutline (sw : ℝ) (poly : List PtR) : List PtR :=
  if poly.length < 2 then poly
  else
    ((List.range poly.length).map fun i =>
      poly.getD i ⟨0, 0⟩ + smR (sw / 2) (localNormal poly i)) ++
    (((List.range poly.length).map fun i =>
      poly.getD i ⟨0, 0⟩ - smR (sw / 2) (localNormal poly i)).reverse)

/-- Concrete polyline for the C2 witness. -/
def polyW : List PtR := [⟨0, 0⟩, ⟨1, 0⟩]

/-- Concrete polyline with positive total length below the 1e-12 cutoff,
for the C2 counterexample. -/
def polyTiny : List PtR := [⟨0, 0⟩, ⟨1 / 10 ^ 13, 0⟩]

/-- Concrete degenerate polyline (repeated point) for the C8
counterexample. -/
def polyDegen : List PtR := [⟨0, 0⟩, ⟨0, 0⟩]

end

end Glyphforge

namespace Glyphforge

@[simp] theorem add_x (p q : Pt) : (p + q).x = p.x + q.x := rfl

@[simp] theorem add_y (p q : Pt) : (p + q).y = p.y + q.y := rfl

@[simp] theorem sub_x (p q : Pt) : (p - q).x = p.x - q.x := rfl

@[simp] theorem sub_y (p q : Pt) : (p - q).y = p.y - q.y := rfl

@[simp] theorem sm_x (a : ℚ) (p : Pt) : (sm a p).x = a * p.x := rfl

@[simp] theorem sm_y (a : ℚ) (p : Pt) : (sm a p).y = a * p.y := rfl

@[simp] theorem lerp_x (p q : Pt) (t : ℚ) :
    (p.lerp q t).x = p.x + (q.x - p.x) * t := rfl

@[simp] theorem lerp_y (p q : Pt) (t : ℚ) :
    (p.lerp q t).y = p.y + (q.y - p.y) * t := rfl

/-- C1: De Casteljau subdivision satisfies, exactly over ℚ, for every cubic
bezier `c` and every `t ∈ [0,1]`: `left.p0 = c.p0`, `right.p3 = c.p3`,
`left.p3 = right.p0 = evaluate c t`, and for every `u ∈ [0,1]` the halves
re-evaluate to `evaluate c (t*u)` and `evaluate c (t + (1-t)*u)`. -/
theorem claim_C1_split_evaluate (c : CubicBezier) (t : ℚ)
    (ht0 : 0 ≤ t) (ht1 : t ≤ 1) :
    (split c t).1.p0 = c.p0 ∧ (split c t).2.p3 = c.p3 ∧
    (split c t).1.p3 = evaluate c t ∧ (split c t).2.p0 = evaluate c t ∧
    ∀ u : ℚ, 0 ≤ u → u ≤ 1 →
      evaluate (split c t).1 u = evaluate c (t * u) ∧
      evaluate (split c t).2 u = evaluate c (t + (1 - t) * u) := by
  refine ⟨rfl, rfl, ?_, ?_, ?_⟩
  · ext <;> simp [split, evaluate, Pt.lerp] <;> ring
  · ext <;> simp [split, evaluate, Pt.lerp] <;> ring
  · intro u hu0 hu1
    constructor <;> ext <;> simp [split, evaluate, Pt.lerp] <;> ring

/-- Witness for C1 at the concrete curve `bez0`, `t = 1/2`, `u = 1/3`. -/
theorem claim_C1_witness :
    (split bez0 (1 / 2)).1.p3 = evaluate bez0 (1 / 2) ∧
    evaluate (split bez0 (1 / 2)).1 (1 / 3) = evaluate bez0 (1 / 2 * (1 / 3)) ∧
    evaluate (split bez0 (1 / 2)).2 (1 / 3) =
      evaluate bez0 (1 / 2 + (1 - 1 / 2) * (1 / 3)) := by
  have h := claim_C1_split_evaluate bez0 (1 / 2) (by norm_num) (by norm_num)
  exact ⟨h.2.2.1, (h.2.2.2.2 (1 / 3) (by norm_num) (by norm_num)).1,
    (h.2.2.2.2 (1 / 3) (by norm_num) (by norm_num)).2⟩

theorem getLastD_irrel (l : List Pt) (d e : Pt) (h : l ≠ []) :
    l.getLastD d = l.getLastD e := by
  rcases l with _ | ⟨b, t⟩
  · exact absurd rfl h
  · rw [List.getLastD_cons, List.getLastD_cons]

theorem getLastD_app (l1 l2 : List Pt) (h : l2 ≠ []) :
    ∀ d, (l1 ++ l2).getLastD d = l2.getLastD d := by
  induction l1 with
  | nil => intro d; rfl
  | cons a l ih =>
    intro d
    rw [List.cons_append, List.getLastD_cons, ih a, getLastD_irrel l2 a d h]

theorem flattenRec_ne_nil (fuel : ℕ) (b : CubicBezier) (tol : ℚ) :
    flattenRec fuel b tol ≠ [] := by
  cases fuel with
  | zero => simp [flattenRec]
  | succ n =>
    by_cases hf : flatLe b tol
    · simp [flattenRec, hf]
    · simp only [flattenRec, hf, if_false]
      intro hc
      rcases List.append_eq_nil.mp hc with ⟨h1, _⟩
      exact flattenRec_ne_nil n _ tol h1

theorem flattenRec_getLastD (fuel : ℕ) (b : CubicBezier) (tol : ℚ) (d : Pt) :
    (flattenRec fuel b tol).getLastD d = b.p3 := by
  induction fuel generalizing b with
  | zero => rfl
  | succ n ih =>
    by_cases hf : flatLe b tol
    · simp [flattenRec, hf]
    · simp only [flattenRec, hf, if_false]
      rw [getLastD_app _ _ (flattenRec_ne_nil n _ tol) d, ih]
      rfl

/-- C7 (amended): flatten's output always starts at `p0` and ends at `p3`
(for every recursion budget); a `make_line` curve whose chord is exactly
zero or has length at least 1e-12 flattens to exactly `[p0, p3]` at any
tolerance ≥ 0.  The claim's unrestricted straight-line clause fails for
chords strictly between 0 and 1e-12 at tolerance 0 (see the
counterexample): there the flatness test fails and the source subdivides
without bound. -/
theorem claim_C7_flatten :
    (∀ (fuel : ℕ) (b : CubicBezier) (tol : ℚ), 0 < tol →
      (flattenQ fuel b tol).headD ⟨0, 0⟩ = b.p0 ∧
      (flattenQ fuel b tol).getLastD ⟨0, 0⟩ = b.p3) ∧
    (∀ (fuel : ℕ) (p q : Pt) (tol : ℚ), 0 ≤ tol →
      ((1e-12 : ℚ) ^ 2 ≤ sqLen (q - p) ∨ p = q) →
      flattenQ fuel (makeLine p q) tol = [p, q]) := by
  constructor
  · intro fuel b tol _
    refine ⟨rfl, ?_⟩
    show (b.p0 :: flattenRec fuel b tol).getLastD ⟨0, 0⟩ = b.p3
    rw [List.getLastD_cons, flattenRec_getLastD]
  · intro fuel p q tol htol hch
    have hflat : flatLe (makeLine p q) tol := by
      rcases hch with hge | rfl
      · refine Or.inr ⟨?_, htol, ?_⟩
        · refine not_lt.mpr ?_
          show (1e-12 : ℚ) ^ 2 ≤ sqLen (q - p)
          exact hge
        · have h1 : Pt.cross ((makeLine p q).p3 - (makeLine p q).p0)
              ((makeLine p q).p1 - (makeLine p q).p0) = 0 := by
            simp only [makeLine, Pt.cross, sub_x, sub_y, lerp_x, lerp_y]
            ring
          have h2 : Pt.cross ((makeLine p q).p3 - (makeLine p q).p0)
              ((makeLine p q).p2 - (makeLine p q).p0) = 0 := by
            simp only [makeLine, Pt.cross, sub_x, sub_y, lerp_x, lerp_y]
            ring
          rw [h1, h2]
          have hs : (0 : ℚ) ≤ sqLen ((makeLine p q).p3 - (makeLine p q).p0) := by
            unfold sqLen; positivity
          have hz : ((0 : ℚ)) ^ 2 = 0 := by norm_num
          rw [hz, max_self]
          exact mul_nonneg (sq_nonneg tol) hs
      · refine Or.inl ⟨?_, htol, ?_⟩
        · have hz3 : sqLen ((makeLine p p).p3 - (makeLine p p).p0) = 0 := by
            simp [makeLine, sqLen]
          rw [hz3]
          positivity
        · have hz1 : sqLen ((makeLine p p).p1 - (makeLine p p).p0) = 0 := by
            simp only [makeLine, sqLen, sub_x, sub_y, lerp_x, lerp_y]
            ring
          have hz2 : sqLen ((makeLine p p).p2 - (makeLine p p).p0) = 0 := by
            simp only [makeLine, sqLen, sub_x, sub_y, lerp_x, lerp_y]
            ring
          rw [hz1, hz2, max_self]
          exact sq_nonneg tol
    have hrec : flattenRec fuel (makeLine p q) tol = [(makeLine p q).p3] := by
      cases fuel with
      | zero => rfl
      | succ n => simp [flattenRec, hflat]
    show (makeLine p q).p0 :: flattenRec fuel (makeLine p q) tol = [p, q]
    rw [hrec]
    rfl

/-- Witness for C7: the endpoint clause at `bez0`, fuel 8, tolerance 1/10,
and the straight-line clause at a unit-chord line, tolerance 0. -/
theorem claim_C7_witness :
    (flattenQ 8 bez0 (1 / 10)).headD ⟨0, 0⟩ = bez0.p0 ∧
    (flattenQ 8 bez0 (1 / 10)).getLastD ⟨0, 0⟩ = bez0.p3 ∧
    flattenQ 3 (makeLine ⟨0, 0⟩ ⟨1, 0⟩) 0 = [⟨0, 0⟩, ⟨1, 0⟩] := by
  refine ⟨(claim_C7_flatten.1 8 bez0 (1 / 10) (by norm_num)).1,
    (claim_C7_flatten.1 8 bez0 (1 / 10) (by norm_num)).2,
    claim_C7_flatten.2 3 ⟨0, 0⟩ ⟨1, 0⟩ 0 le_rfl (Or.inl ?_)⟩
  show (1e-12 : ℚ) ^ 2 ≤ sqLen ((⟨1, 0⟩ : Pt) - ⟨0, 0⟩)
  norm_num [sqLen]

/-- Counterexample for C7 as stated: a `make_line` curve with a nonzero
chord shorter than 1e-12 does not flatten to 2 points at tolerance 0 —
the flatness test fails and the curve is subdivided (the model returns 3
points at recursion budget 1; the source recurses without bound). -/
theorem claim_C7_counterexample :
    ¬ flatLe lineTiny 0 ∧ (flattenQ 1 lineTiny 0).length = 3 := by
  have hnot : ¬ flatLe lineTiny 0 := by
    intro hfl
    unfold flatLe at hfl
    rcases hfl with ⟨_, _, h3⟩ | ⟨h1, _, _⟩
    · have hv : sqLen (lineTiny.p1 - lineTiny.p0) = 1 / (9 * 10 ^ 26) := by
        simp only [lineTiny, makeLine, sqLen, sub_x, sub_y, lerp_x, lerp_y]
        norm_num
      have h2 := le_trans (le_max_left _ _) h3
      rw [hv] at h2
      norm_num at h2
    · apply h1
      simp only [lineTiny, makeLine, sqLen, sub_x, sub_y]
      norm_num
  refine ⟨hnot, ?_⟩
  show (lineTiny.p0 :: flattenRec 1 lineTiny 0).length = 3
  rw [show flattenRec 1 lineTiny 0 =
    flattenRec 0 (split lineTiny (1 / 2)).1 0 ++
      flattenRec 0 (split lineTiny (1 / 2)).2 0 from by
      simp [flattenRec, hnot]]
  rfl

theorem cross_antisymm (p q : Pt) : Pt.cross p q = -Pt.cross q p := by
  unfold Pt.cross
  ring

theorem pathSum_concat (l : List Pt) (x : Pt) (h : l ≠ []) :
    pathSum (l ++ [x]) = pathSum l + Pt.cross (l.getLastD ⟨0, 0⟩) x := by
  induction l with
  | nil => exact absurd rfl h
  | cons p m ih =>
    rcases m with _ | ⟨q, r⟩
    · simp [pathSum]
    · have hm : (q :: r : List Pt) ≠ [] := by simp
      rw [List.cons_append]
      show Pt.cross p q + pathSum ((q :: r) ++ [x]) = _
      rw [ih hm]
      have hgl : (p :: q :: r).getLastD (⟨0, 0⟩ : Pt) =
          (q :: r).getLastD ⟨0, 0⟩ := by
        rw [List.getLastD_cons]
        exact getLastD_irrel _ p ⟨0, 0⟩ hm
      rw [show pathSum (p :: q :: r) = Pt.cross p q + pathSum (q :: r) from rfl,
        hgl]
      ring

theorem getLastD_rev (l : List Pt) (d : Pt) :
    l.reverse.getLastD d = l.headD d := by
  rw [List.getLastD_eq_getLast? d, List.getLast?_reverse, ← List.headD_eq_head?]

theorem headD_rev (l : List Pt) (d : Pt) :
    l.reverse.headD d = l.getLastD d := by
  rw [List.headD_eq_head?, List.head?_reverse, ← List.getLastD_eq_getLast?]

theorem pathSum_reverse (l : List Pt) : pathSum l.reverse = -pathSum l := by
  induction l with
  | nil => simp [pathSum]
  | cons p m ih =>
    rcases m with _ | ⟨q, r⟩
    · simp [pathSum]
    · have hm : ((q :: r : List Pt)).reverse ≠ [] := by simp
      rw [List.reverse_cons, pathSum_concat _ p hm, ih, getLastD_rev]
      rw [show pathSum (p :: q :: r) = Pt.cross p q + pathSum (q :: r) from rfl]
      rw [show (q :: r : List Pt).headD ⟨0, 0⟩ = q from rfl, cross_antisymm q p]
      ring

theorem cyclicSum_reverse (l : List Pt) : cyclicSum l.reverse = -cyclicSum l := by
  unfold cyclicSum
  rw [pathSum_reverse, getLastD_rev, headD_rev,
    cross_antisymm (l.headD ⟨0, 0⟩) (l.getLastD ⟨0, 0⟩)]
  ring

theorem signedArea_reverse (l : List Pt) :
    signedArea l.reverse = -signedArea l := by
  unfold signedArea
  rw [List.length_reverse]
  by_cases h : l.length < 3
  · simp [h]
  · rw [if_neg h, if_neg h, cyclicSum_reverse]
    ring

theorem pathSum_fromClipper : ∀ l : List Pt,
    pathSum (fromClipper l) = pathSum l / 1000 ^ 2
  | [] => by simp [fromClipper, pathSum]
  | [p] => by simp [fromClipper, pathSum]
  | p :: q :: r => by
    have ih := pathSum_fromClipper (q :: r)
    simp only [fromClipper, List.map_cons] at ih ⊢
    rw [show pathSum ((⟨p.x / 1000, p.y / 1000⟩ : Pt) ::
        (⟨q.x / 1000, q.y / 1000⟩ : Pt) ::
        r.map fun s => (⟨s.x / 1000, s.y / 1000⟩ : Pt)) =
      Pt.cross ⟨p.x / 1000, p.y / 1000⟩ ⟨q.x / 1000, q.y / 1000⟩ +
        pathSum ((⟨q.x / 1000, q.y / 1000⟩ : Pt) ::
          r.map fun s => (⟨s.x / 1000, s.y / 1000⟩ : Pt)) from rfl]
    rw [ih,
      show pathSum (p :: q :: r) = Pt.cross p q + pathSum (q :: r) from rfl]
    unfold Pt.cross
    ring

theorem cyclicSum_fromClipper (l : List Pt) :
    cyclicSum (fromClipper l) = cyclicSum l / 1000 ^ 2 := by
  rcases l with _ | ⟨p, m⟩
  · simp [cyclicSum, fromClipper, pathSum, Pt.cross]
  · obtain ⟨a, ha⟩ := Option.isSome_iff_exists.mp
      (List.getLast?_isSome.mpr (List.cons_ne_nil p m))
    unfold cyclicSum
    rw [pathSum_fromClipper]
    have hlast : (fromClipper (p :: m)).getLastD ⟨0, 0⟩ =
        ⟨a.x / 1000, a.y / 1000⟩ := by
      rw [List.getLastD_eq_getLast?]
      unfold fromClipper
      rw [List.getLast?_map, ha]
      rfl
    have hlast2 : (p :: m).getLastD (⟨0, 0⟩ : Pt) = a := by
      rw [List.getLastD_eq_getLast?, ha]
      rfl
    have hhead : (fromClipper (p :: m)).headD (⟨0, 0⟩ : Pt) =
        ⟨p.x / 1000, p.y / 1000⟩ := rfl
    rw [hlast, hlast2, hhead,
      show (p :: m).headD (⟨0, 0⟩ : Pt) = p from rfl]
    unfold Pt.cross
    ring

theorem signedArea_fromClipper (l : List Pt) :
    signedArea (fromClipper l) = signedArea l / 1000 ^ 2 := by
  unfold signedArea
  rw [show (fromClipper l).length = l.length from List.length_map l _]
  by_cases h : l.length < 3
  · simp [h]
  · rw [if_neg h, if_neg h, cyclicSum_fromClipper]
    ring

theorem normalizeContour_sign (c : List Pt) :
    signedArea (normalizeContour true c) ≤ 0 ∧
    0 ≤ signedArea (normalizeContour false c) := by
  constructor
  · unfold normalizeContour
    by_cases h : 0 < signedArea c
    · rw [if_pos rfl, if_pos h, signedArea_reverse]
      linarith
    · rw [if_pos rfl, if_neg h]
      exact not_lt.mp h
  · unfold normalizeContour
    by_cases h : signedArea c < 0
    · simp only [Bool.false_eq_true, if_false, if_pos h, signedArea_reverse]
      linarith
    · simp only [Bool.false_eq_true, if_false, if_neg h]
      exact not_lt.mp h

/-- C3: every contour emitted by the polytree walk of the union step is
winding-normalized for the nonzero fill rule: a contour tagged as a hole
is emitted with non-positive signed area (CW) and a contour tagged as an
outer with non-negative signed area (CCW). -/
theorem claim_C3_winding (t : PolyNode) (c : List Pt) (isHole : Bool)
    (he : EmittedFrom t c isHole) (hnz : signedArea c ≠ 0) :
    fromClipper (normalizeContour isHole c) ∈ collectPolytree t ∧
    (isHole = true → signedArea (fromClipper (normalizeContour isHole c)) ≤ 0) ∧
    (isHole = false →
      0 ≤ signedArea (fromClipper (normalizeContour isHole c))) := by
  refine ⟨?_, ?_, ?_⟩
  · clear hnz
    induction he with
    | here c0 h0 kids hne =>
      rw [show collectPolytree (.mk c0 h0 kids) =
        (if c0 ≠ [] then [fromClipper (normalizeContour h0 c0)] else []) ++
          (kids.attach.map fun x => collectPolytree x.1).flatten from by
          rw [collectPolytree]]
      rw [if_pos hne]
      exact List.mem_append_left _ (List.mem_cons_self _ _)
    | child c0 h0 kids n c1 h1 hn he1 ih =>
      rw [show collectPolytree (.mk c0 h0 kids) =
        (if c0 ≠ [] then [fromClipper (normalizeContour h0 c0)] else []) ++
          (kids.attach.map fun x => collectPolytree x.1).flatten from by
          rw [collectPolytree]]
      refine List.mem_append_right _ (List.mem_flatten.mpr
        ⟨collectPolytree n, ?_, ih⟩)
      exact List.mem_map.mpr ⟨⟨n, hn⟩, List.mem_attach _ _, rfl⟩
  · intro hh
    subst hh
    rw [signedArea_fromClipper]
    exact div_nonpos_of_nonpos_of_nonneg (normalizeContour_sign c).1
      (by norm_num)
  · intro hh
    subst hh
    rw [signedArea_fromClipper]
    exact div_nonneg (normalizeContour_sign c).2 (by norm_num)

/-- Witness for C3 at a concrete one-node polytree holding a clockwise
triangle tagged as an outer: its emitted contour is in the walk's output
and has non-negative area. -/
theorem claim_C3_witness :
    fromClipper (normalizeContour false [⟨0, 0⟩, ⟨0, 1000⟩, ⟨1000, 0⟩]) ∈
      collectPolytree triNode ∧
    0 ≤ signedArea
      (fromClipper (normalizeContour false [⟨0, 0⟩, ⟨0, 1000⟩, ⟨1000, 0⟩])) := by
  have hnz : signedArea ([⟨0, 0⟩, ⟨0, 1000⟩, ⟨1000, 0⟩] : List Pt) ≠ 0 := by
    unfold signedArea cyclicSum
    norm_num [pathSum, Pt.cross]
  have h := claim_C3_winding triNode [⟨0, 0⟩, ⟨0, 1000⟩, ⟨1000, 0⟩] false
    (EmittedFrom.here _ _ _ (by simp)) hnz
  exact ⟨h.1, h.2.2 rfl⟩

/-- C10: `estimate_ink_coverage` always lies in [0,1]: it is 0 whenever the
reference box area is below 1e-12, and otherwise equals the ratio of the
summed absolute shoelace areas to the box area clamped at 1. -/
theorem claim_C10_ink (o : Outline) (bb : BBox) :
    0 ≤ estimateInk o bb ∧ estimateInk o bb ≤ 1 ∧
    (bbArea bb < 1e-12 → estimateInk o bb = 0) ∧
    (¬ bbArea bb < 1e-12 → estimateInk o bb =
      min 1 ((o.polygons.map fun poly => |signedArea poly|).sum / bbArea bb)) := by
  by_cases h : bbArea bb < 1e-12
  · refine ⟨le_refl 0 |>.trans ?_, ?_, fun _ => ?_, fun hc => absurd h hc⟩ <;>
      simp [estimateInk, h]
  · have hpos : (0 : ℚ) < bbArea bb :=
      lt_of_lt_of_le (by norm_num) (not_lt.mp h)
    have hsum : 0 ≤ (o.polygons.map fun poly => |signedArea poly|).sum := by
      refine List.sum_nonneg ?_
      intro x hx
      obtain ⟨poly, _, rfl⟩ := List.mem_map.mp hx
      exact abs_nonneg _
    have heq : estimateInk o bb =
        min 1 ((o.polygons.map fun poly => |signedArea poly|).sum / bbArea bb) := by
      simp [estimateInk, h]
    refine ⟨?_, ?_, fun hc => absurd hc h, fun _ => heq⟩
    · rw [heq]
      exact le_min (by norm_num) (div_nonneg hsum hpos.le)
    · rw [heq]
      exact min_le_left _ _

/-- Witness for C10 at a concrete outline (CCW square of area 4) and a
unit bounding box: the coverage ratio 4 is clamped into [0,1]. -/
theorem claim_C10_witness :
    0 ≤ estimateInk outline0 bbox0 ∧ estimateInk outline0 bbox0 ≤ 1 ∧
    estimateInk outline0 bbox0 =
      min 1 ((outline0.polygons.map fun poly => |signedArea poly|).sum /
        bbArea bbox0) := by
  have h := claim_C10_ink outline0 bbox0
  exact ⟨h.1, h.2.1, h.2.2.2 (by norm_num [bbArea, bbox0])⟩

theorem drawN_baseSeed_domain (k : ℕ) (r : SRng) :
    (drawN k r).baseSeed = r.baseSeed ∧ (drawN k r).domain = r.domain := by
  induction k generalizing r with
  | zero => exact ⟨rfl, rfl⟩
  | succ m ih => exact (ih (rngNext r))

/-- C5: forking is a pure function of (seed, full domain path).  For every
seed-derivation function and stream function, the sequence observed from
a fork depends only on the base seed and the concatenated path: two runs
that drew arbitrarily different numbers of values from the parent before
forking observe identical child streams, equal to the stream of a fresh
RNG constructed directly at the child path. -/
theorem claim_C5_fork_pure (derive : ℤ → String → ℕ) (mt : ℕ → ℕ → ℤ)
    (seed : ℤ) (dom sub : String) (k1 k2 n : ℕ) :
    outputs derive mt (forkRng (drawN k1 (mkRng seed dom)) sub) n =
      outputs derive mt (forkRng (drawN k2 (mkRng seed dom)) sub) n ∧
    outputs derive mt (forkRng (drawN k1 (mkRng seed dom)) sub) n =
      outputs derive mt (mkRng seed (dom ++ "/" ++ sub)) n := by
  have hf : ∀ k : ℕ,
      forkRng (drawN k (mkRng seed dom)) sub = mkRng seed (dom ++ "/" ++ sub) := by
    intro k
    unfold forkRng
    rw [(drawN_baseSeed_domain k (mkRng seed dom)).1,
      (drawN_baseSeed_domain k (mkRng seed dom)).2]
    rfl
  rw [hf k1, hf k2]
  exact ⟨rfl, rfl⟩

/-- C9: applying a single-field override with a valid value produces a
style with exactly that field set to the (possibly string-to-enum
converted) value, and every other field unchanged. -/
theorem claim_C9_override (s : AlphabetStyle) (f : FieldName) (v : OVal)
    (fv : OVal) (h : convert f v = some fv) :
    apply_overrides s [(f, v)] = some (setField s f fv) ∧
    getField (setField s f fv) f = fv ∧
    ∀ g : FieldName, g ≠ f → getField (setField s f fv) g = getField s g := by
  refine ⟨?_, ?_, ?_⟩
  · simp only [apply_overrides, h]
  · cases f <;> cases v <;>
      simp only [convert] at h <;>
      (try split_ifs at h) <;>
      (try cases h) <;>
      rfl
  · intro g hg
    cases f <;> cases fv <;> cases g <;>
      first
        | exact absurd rfl hg
        | rfl

/-- Witness for C9: overriding `stroke_width` to 1/5 on the default style
changes that field and leaves `x_height` (and, by the theorem, every
other field) unchanged. -/
theorem claim_C9_witness :
    apply_overrides defaultStyle [(FieldName.strokeWidth, OVal.num (1 / 5))] =
      some (setField defaultStyle .strokeWidth (.num (1 / 5))) ∧
    getField (setField defaultStyle .strokeWidth (.num (1 / 5)))
      .strokeWidth = .num (1 / 5) ∧
    getField (setField defaultStyle .strokeWidth (.num (1 / 5))) .xHeight =
      getField defaultStyle .xHeight := by
  have h := claim_C9_override defaultStyle .strokeWidth (.num (1 / 5))
    (.num (1 / 5)) rfl
  exact ⟨h.1, h.2.1, h.2.2 .xHeight (by decide)⟩

theorem buildSeg_endpoints (s : AlphabetStyle) (p0 p1 : Pt) (bulge : ℚ)
    (r : JRng) :
    ((buildSeg s p0 p1 bulge r).1).p0 = p0 ∧
    ((buildSeg s p0 p1 bulge r).1).p3 = p1 := by
  simp only [buildSeg, jGauss, jCoin]
  split_ifs <;> exact ⟨rfl, rfl⟩

theorem buildSegs_chain (s : AlphabetStyle) (pts : List Pt) :
    ∀ (ancs : List AnchorPt) (r : JRng),
      List.Chain' (fun a b => a.p3 = b.p0) (buildSegs s pts ancs r) ∧
      ∀ seg ∈ (buildSegs s pts ancs r).head?, seg.p0 = pts.headD ⟨0, 0⟩ := by
  induction pts with
  | nil =>
    intro ancs r
    simp [buildSegs]
  | cons p tail ih =>
    intro ancs r
    rcases tail with _ | ⟨q, rest⟩
    · simp [buildSegs]
    · rcases ancs with _ | ⟨a, ancs2⟩
      · simp [buildSegs]
      · rcases hbs : buildSeg s p q a.bulge r with ⟨seg, r1⟩
        have hstep : buildSegs s (p :: q :: rest) (a :: ancs2) r =
            seg :: buildSegs s (q :: rest) ancs2 r1 := by
          simp only [buildSegs, hbs]
        have hends := buildSeg_endpoints s p q a.bulge r
        rw [hbs] at hends
        constructor
        · rw [hstep, List.chain'_cons']
          refine ⟨?_, (ih ancs2 r1).1⟩
          intro b hb
          have hb0 := (ih ancs2 r1).2 b hb
          exact hends.2.trans hb0.symm
        · rw [hstep]
          intro sg hsg
          have hsg2 : sg = seg := by
            simp only [List.head?_cons, Option.mem_def, Option.some_inj] at hsg
            exact hsg.symm
          subst hsg2
          exact hends.1

/-- C6: every stroke produced from a stroke spec is geometrically chained:
for every style, anchor list, and random stream, consecutive segments
satisfy `segments[i].p3 = segments[i+1].p0`, because each segment's
endpoints are the consecutive scaled jittered anchors (kept by `make_arc`
and `make_s_curve`) and control-point jitter touches only `p1`, `p2`. -/
theorem claim_C6_chained (s : AlphabetStyle) (anchors : List AnchorPt)
    (r : JRng) (i : ℕ)
    (h : i + 1 < (specToStroke s anchors r).segments.length) :
    ((specToStroke s anchors r).segments.getD i cbD).p3 =
      ((specToStroke s anchors r).segments.getD (i + 1) cbD).p0 := by
  rcases hja : jitterAnchors s.anchorJitter anchors r with ⟨jit, r1⟩
  have hsegs : (specToStroke s anchors r).segments =
      buildSegs s (scaleToMetrics s jit) anchors r1 := by
    simp only [specToStroke, hja]
  rw [hsegs] at h ⊢
  have hchain := (buildSegs_chain s (scaleToMetrics s jit) anchors r1).1
  have hi : i < (buildSegs s (scaleToMetrics s jit) anchors r1).length - 1 := by
    omega
  have hstep := List.chain'_iff_get.mp hchain i hi
  have h1 : i < (buildSegs s (scaleToMetrics s jit) anchors r1).length := by
    omega
  rw [List.getD_eq_getElem _ cbD h1, List.getD_eq_getElem _ cbD h]
  simpa using hstep

theorem jitterAnchors_len (aj : ℚ) :
    ∀ (l : List AnchorPt) (r : JRng),
      ((jitterAnchors aj l r).1).length = l.length := by
  intro l
  induction l with
  | nil => intro r; rfl
  | cons a rest ih =>
    intro r
    rcases hja : jitterAnchors aj rest (⟨r.vals, r.idx + 2⟩ : JRng) with ⟨ps, r3⟩
    have : jitterAnchors aj (a :: rest) r =
        (⟨clamp01 (a.x + (0 + aj * r.vals r.idx)),
          clamp01 (a.y + (0 + aj * r.vals (r.idx + 1)))⟩ :: ps, r3) := by
      simp only [jitterAnchors, jGauss, hja]
    rw [this]
    have := ih (⟨r.vals, r.idx + 2⟩ : JRng)
    rw [hja] at this
    simpa using this

theorem buildSegs_len (s : AlphabetStyle) :
    ∀ (pts : List Pt) (ancs : List AnchorPt) (r : JRng),
      pts.length = ancs.length →
      (buildSegs s pts ancs r).length = pts.length - 1 := by
  intro pts
  induction pts with
  | nil => intro ancs r _; rfl
  | cons p tail ih =>
    intro ancs r hlen
    rcases tail with _ | ⟨q, rest⟩
    · rfl
    · rcases ancs with _ | ⟨a, ancs2⟩
      · simp at hlen
      · rcases hbs : buildSeg s p q a.bulge r with ⟨seg, r1⟩
        have hstep : buildSegs s (p :: q :: rest) (a :: ancs2) r =
            seg :: buildSegs s (q :: rest) ancs2 r1 := by
          simp only [buildSegs, hbs]
        rw [hstep]
        have hlen2 : (q :: rest : List Pt).length = ancs2.length := by
          simpa using hlen
        have := ih ancs2 r1 hlen2
        simp only [List.length_cons, this]
        omega

theorem specToStroke_len (s : AlphabetStyle) (anchors : List AnchorPt)
    (r : JRng) :
    (specToStroke s anchors r).segments.length = anchors.length - 1 := by
  rcases hja : jitterAnchors s.anchorJitter anchors r with ⟨jit, r1⟩
  have hsegs : (specToStroke s anchors r).segments =
      buildSegs s (scaleToMetrics s jit) anchors r1 := by
    simp only [specToStroke, hja]
  have hjl : jit.length = anchors.length := by
    have := jitterAnchors_len s.anchorJitter anchors r
    rw [hja] at this
    exact this
  have hsl : (scaleToMetrics s jit).length = anchors.length := by
    rw [scaleToMetrics, List.length_map, hjl]
  rw [hsegs, buildSegs_len s _ anchors r1 (by rw [hsl]), hsl]

/-- Witness for C6 at a concrete three-anchor spec, the default style and
the all-zeros stream. -/
theorem claim_C6_witness :
    ((specToStroke defaultStyle anchors3 zeroRng).segments.getD 0 cbD).p3 =
      ((specToStroke defaultStyle anchors3 zeroRng).segments.getD 1 cbD).p0 := by
  refine claim_C6_chained defaultStyle anchors3 zeroRng 0 ?_
  rw [specToStroke_len]
  norm_num [anchors3]

/-- C4: if the boolean union fails — `Execute2` raises, or the collected
polytree is empty — the expander returns the un-unioned polygon list
unchanged, and `expand_skeleton`'s output is exactly the pre-union
polygon list (the model is total, so no failure propagates). -/
theorem claim_C4_union_fallback (expandStroke : Stroke → List (List Pt))
    (expandDec : Decoration → List (List Pt))
    (clipperExec : List (List Pt) → Except Unit PolyNode)
    (addOk : List Pt → Bool) (skel : Skeleton) (pre : List (List Pt))
    (hpre : pre = (skel.strokes.map expandStroke).flatten ++
      (skel.decorations.map expandDec).flatten)
    (hfail : clipperExec ((pre.map toClipper).filter
        fun cp => decide (3 ≤ cp.length) && addOk cp) = .error () ∨
      ∃ tree, clipperExec ((pre.map toClipper).filter
        fun cp => decide (3 ≤ cp.length) && addOk cp) = .ok tree ∧
        collectPolytree tree = []) :
    (expandSkeleton expandStroke expandDec clipperExec addOk skel).polygons
      = pre := by
  subst hpre
  simp only [expandSkeleton]
  by_cases hlen : 1 < ((skel.strokes.map expandStroke).flatten ++
      (skel.decorations.map expandDec).flatten).length
  · rw [if_pos hlen]
    rcases hfail with he | ⟨tree, hok, hemp⟩
    · simp only [unionPolygons, he]
    · simp only [unionPolygons, hok, hemp, if_pos]
  · rw [if_neg hlen]

/-- Witness for C4 at a concrete two-stroke skeleton whose union raises:
the output is exactly the two pre-union triangles. -/
theorem claim_C4_witness :
    (expandSkeleton expandStroke0 expandDec0 execFail (fun _ => true)
      skel0).polygons = [tri4, tri4] :=
  claim_C4_union_fallback expandStroke0 expandDec0 execFail (fun _ => true)
    skel0 [tri4, tri4] rfl (Or.inl rfl)

@[simp] theorem addR_x (p q : PtR) : (p + q).x = p.x + q.x := rfl

@[simp] theorem addR_y (p q : PtR) : (p + q).y = p.y + q.y := rfl

@[simp] theorem subR_x (p q : PtR) : (p - q).x = p.x - q.x := rfl

@[simp] theorem subR_y (p q : PtR) : (p - q).y = p.y - q.y := rfl

@[simp] theorem smR_x (a : ℝ) (p : PtR) : (smR a p).x = a * p.x := rfl

@[simp] theorem smR_y (a : ℝ) (p : PtR) : (smR a p).y = a * p.y := rfl

/-- C8 (amended): the local normal at polyline vertex `i` is the
normalized 90-degree rotation of the direction to the next point (first
vertex), from the previous point (last vertex), or spanning the two
neighbours (interior); a non-degenerate direction gives a unit normal,
but a degenerate one (length below 1e-12) yields the zero vector — not
the claimed default vertical normal (see the counterexample). -/
theorem claim_C8_local_normal (poly : List PtR) (i : ℕ) :
    (i = 0 → localDirection poly i = poly.getD 1 ⟨0, 0⟩ - poly.getD 0 ⟨0, 0⟩) ∧
    (i ≠ 0 → i = poly.length - 1 →
      localDirection poly i =
        poly.getD (poly.length - 1) ⟨0, 0⟩ -
          poly.getD (poly.length - 2) ⟨0, 0⟩) ∧
    (i ≠ 0 → i ≠ poly.length - 1 →
      localDirection poly i = poly.getD (i + 1) ⟨0, 0⟩ -
        poly.getD (i - 1) ⟨0, 0⟩) ∧
    (lenR ⟨-(localDirection poly i).y, (localDirection poly i).x⟩ < 1e-12 →
      localNormal poly i = ⟨0, 0⟩) ∧
    (1e-12 ≤ lenR ⟨-(localDirection poly i).y, (localDirection poly i).x⟩ →
      localNormal poly i =
        ⟨-(localDirection poly i).y /
            lenR ⟨-(localDirection poly i).y, (localDirection poly i).x⟩,
          (localDirection poly i).x /
            lenR ⟨-(localDirection poly i).y, (localDirection poly i).x⟩⟩ ∧
      lenR (localNormal poly i) = 1) := by
  refine ⟨?_, ?_, ?_, ?_, ?_⟩
  · intro h0
    rw [localDirection, if_pos h0]
  · intro h0 hl
    rw [localDirection, if_neg h0, if_pos hl]
  · intro h0 hl
    rw [localDirection, if_neg h0, if_neg hl]
  · intro hd
    rw [localNormal, normalizedR, if_pos hd]
  · intro hge
    have hnlt : ¬ lenR
        ⟨-(localDirection poly i).y, (localDirection poly i).x⟩ < 1e-12 :=
      not_lt.mpr hge
    have hnorm : localNormal poly i =
        ⟨-(localDirection poly i).y /
            lenR ⟨-(localDirection poly i).y, (localDirection poly i).x⟩,
          (localDirection poly i).x /
            lenR ⟨-(localDirection poly i).y, (localDirection poly i).x⟩⟩ := by
      rw [localNormal, normalizedR, if_neg hnlt]
    refine ⟨hnorm, ?_⟩
    have hyx : (⟨-(localDirection poly i).y, (localDirection poly i).x⟩ :
        PtR).x = -(localDirection poly i).y := rfl
    have hs : (0 : ℝ) ≤ (-(localDirection poly i).y) ^ 2 +
        ((localDirection poly i).x) ^ 2 := by positivity
    have hLpos : (0 : ℝ) < lenR
        ⟨-(localDirection poly i).y, (localDirection poly i).x⟩ :=
      lt_of_lt_of_le (by norm_num) hge
    have hspos : (0 : ℝ) < (-(localDirection poly i).y) ^ 2 +
        ((localDirection poly i).x) ^ 2 := by
      rw [lenR] at hLpos
      exact Real.sqrt_pos.mp hLpos
    have hL2 : (lenR ⟨-(localDirection poly i).y,
        (localDirection poly i).x⟩) ^ 2 =
        (-(localDirection poly i).y) ^ 2 + ((localDirection poly i).x) ^ 2 := by
      rw [lenR]
      exact Real.sq_sqrt hs
    rw [hnorm, lenR]
    have hrw : ((⟨-(localDirection poly i).y /
          lenR ⟨-(localDirection poly i).y, (localDirection poly i).x⟩,
        (localDirection poly i).x /
          lenR ⟨-(localDirection poly i).y, (localDirection poly i).x⟩⟩ :
        PtR).x) ^ 2 +
        ((⟨-(localDirection poly i).y /
          lenR ⟨-(localDirection poly i).y, (localDirection poly i).x⟩,
        (localDirection poly i).x /
          lenR ⟨-(localDirection poly i).y, (localDirection poly i).x⟩⟩ :
        PtR).y) ^ 2 =
        ((-(localDirection poly i).y) ^ 2 + ((localDirection poly i).x) ^ 2) /
          (lenR ⟨-(localDirection poly i).y, (localDirection poly i).x⟩) ^ 2 := by
      show (-(localDirection poly i).y /
          lenR ⟨-(localDirection poly i).y, (localDirection poly i).x⟩) ^ 2 +
        ((localDirection poly i).x /
          lenR ⟨-(localDirection poly i).y, (localDirection poly i).x⟩) ^ 2 = _
      ring
    rw [hrw, hL2, div_self (ne_of_gt hspos), Real.sqrt_one]

/-- Witness for C8 at the polyline [(0,0),(1,0)], vertex 0: the direction
is horizontal, the normal is vertical with unit length. -/
theorem claim_C8_witness : lenR (localNormal polyW 0) = 1 := by
  have hd : localDirection polyW 0 = (⟨1, 0⟩ : PtR) - ⟨0, 0⟩ := by
    rw [localDirection, if_pos rfl]
    rfl
  have hlen : lenR ⟨-(localDirection polyW 0).y,
      (localDirection polyW 0).x⟩ = 1 := by
    rw [hd, lenR]
    rw [show (-(((⟨1, 0⟩ : PtR) - ⟨0, 0⟩)).y) ^ 2 +
        ((((⟨1, 0⟩ : PtR) - ⟨0, 0⟩)).x) ^ 2 = 1 by simp]
    exact Real.sqrt_one
  exact ((claim_C8_local_normal polyW 0).2.2.2.2 (by rw [hlen]; norm_num)).2

/-- Counterexample for C8 as stated: at a degenerate vertex (repeated
point, direction length 0 < 1e-12) the code's normal is the zero vector,
not the claimed default vertical normal (0,1) — `Point.normalized`
returns (0,0) for near-zero vectors, unlike `bezier.normal`. -/
theorem claim_C8_counterexample :
    localNormal polyDegen 0 = ⟨0, 0⟩ ∧ localNormal polyDegen 0 ≠ ⟨0, 1⟩ := by
  have hd : localDirection polyDegen 0 = (⟨0, 0⟩ : PtR) - ⟨0, 0⟩ := by
    rw [localDirection, if_pos rfl]
    rfl
  have hz : localNormal polyDegen 0 = ⟨0, 0⟩ := by
    rw [localNormal, normalizedR, if_pos]
    rw [hd, lenR]
    rw [show (-(((⟨0, 0⟩ : PtR) - ⟨0, 0⟩)).y) ^ 2 +
        ((((⟨0, 0⟩ : PtR) - ⟨0, 0⟩)).x) ^ 2 = 0 by
      simp]
    rw [Real.sqrt_zero]
    norm_num
  refine ⟨hz, ?_⟩
  rw [hz]
  intro hc
  have : (0 : ℝ) = 1 := congrArg PtR.y hc
  norm_num at this

theorem rails_getD (f g : ℕ → PtR) (n i : ℕ) (hi : i < n) :
    (((List.range n).map f) ++ ((List.range n).map g).reverse).getD i ⟨0, 0⟩ =
      f i ∧
    (((List.range n).map f) ++
        ((List.range n).map g).reverse).getD (2 * n - 1 - i) ⟨0, 0⟩ = g i := by
  have hlenL : ((List.range n).map f).length = n := by simp
  constructor
  · rw [List.getD_eq_getElem?_getD,
      List.getElem?_append_left (by rw [hlenL]; exact hi),
      List.getElem?_map, List.getElem?_range hi]
    rfl
  · rw [List.getD_eq_getElem?_getD,
      List.getElem?_append_right (by rw [hlenL]; omega)]
    have hidx : 2 * n - 1 - i - ((List.range n).map f).length = n - 1 - i := by
      rw [hlenL]
      omega
    rw [hidx,
      List.getElem?_reverse (by rw [List.length_map, List.length_range]; omega)]
    have hidx2 : ((List.range n).map g).length - 1 - (n - 1 - i) = i := by
      rw [List.length_map, List.length_range]
      omega
    rw [hidx2, List.getElem?_map, List.getElem?_range hi]
    rfl

/-- C2 (amended): for every style and flattened polyline of n ≥ 2 points
whose total length is at least 1e-12 (the source returns the bare
polyline for shorter positive lengths — see the counterexample), the
gradient expansion yields one closed polygon of 2n vertices: vertex i is
`polyline[i] + normal_i * w(t_i)/2` and vertex 2n-1-i is
`polyline[i] - normal_i * w(t_i)/2`, where `t_i` is the cumulative
arc-length fraction and `gradHalfWidth` is half the width interpolating
linearly from `stroke_width` at t=0 to `stroke_width * taper` at t=1;
the left rail runs start-to-end, the right rail end-to-start. -/
theorem claim_C2_gradient (sw tr : ℝ) (poly : List PtR)
    (h2 : 2 ≤ poly.length) (hl : 1e-12 ≤ totalLenR poly) :
    (buildGradientOutline sw tr poly).length = 2 * poly.length ∧
    ∀ i, i < poly.length →
      (buildGradientOutline sw tr poly).getD i ⟨0, 0⟩ =
        poly.getD i ⟨0, 0⟩ +
          smR (gradHalfWidth sw tr poly i) (localNormal poly i) ∧
      (buildGradientOutline sw tr poly).getD
          (2 * poly.length - 1 - i) ⟨0, 0⟩ =
        poly.getD i ⟨0, 0⟩ -
          smR (gradHalfWidth sw tr poly i) (localNormal poly i) := by
  have hn2 : ¬ poly.length < 2 := not_lt.mpr h2
  have hnl : ¬ totalLenR poly < 1e-12 := not_lt.mpr hl
  have hb : buildGradientOutline sw tr poly =
      ((List.range poly.length).map fun i =>
        poly.getD i ⟨0, 0⟩ +
          smR (gradHalfWidth sw tr poly i) (localNormal poly i)) ++
      (((List.range poly.length).map fun i =>
        poly.getD i ⟨0, 0⟩ -
          smR (gradHalfWidth sw tr poly i) (localNormal poly i)).reverse) := by
    rw [buildGradientOutline, if_neg hn2, if_neg hnl]
  constructor
  · rw [hb]
    simp only [List.length_append, List.length_reverse, List.length_map,
      List.length_range]
    omega
  · intro i hi
    rw [hb]
    exact ⟨(rails_getD _ _ poly.length i hi).1,
      (rails_getD _ _ poly.length i hi).2⟩

/-- Witness for C2 at the unit-length two-point polyline: the gradient
outline has 4 = 2*2 vertices. -/
theorem claim_C2_witness :
    (buildGradientOutline 1 (1 / 2) polyW).length = 2 * polyW.length := by
  have hd : distR ⟨0, 0⟩ ⟨1, 0⟩ = 1 := by
    rw [distR, lenR]
    rw [show ((((⟨1, 0⟩ : PtR) - ⟨0, 0⟩)).x ^ 2 +
        (((⟨1, 0⟩ : PtR) - ⟨0, 0⟩)).y ^ 2) = 1 by simp]
    exact Real.sqrt_one
  have htot : totalLenR polyW = 1 := by
    simp only [totalLenR, polyW, cumLengthsR, cumFrom, hd,
      List.getLastD_cons]
    norm_num
  exact (claim_C2_gradient 1 (1 / 2) polyW (by simp [polyW])
    (by rw [htot]; norm_num)).1

/-- Counterexample for C2 as stated: a two-point polyline of positive
total length 1e-13 (< 1e-12) is returned unchanged by the gradient
builder — 2 vertices, not the claimed 2n = 4 rail vertices. -/
theorem claim_C2_counterexample :
    0 < totalLenR polyTiny ∧ 2 ≤ polyTiny.length ∧
    buildGradientOutline 1 (1 / 2) polyTiny = polyTiny ∧
    (buildGradientOutline 1 (1 / 2) polyTiny).length ≠ 2 * polyTiny.length := by
  have hd : distR ⟨0, 0⟩ ⟨1 / 10 ^ 13, 0⟩ = 1 / 10 ^ 13 := by
    rw [distR, lenR]
    rw [show (((⟨1 / 10 ^ 13, 0⟩ : PtR) - ⟨0, 0⟩).x ^ 2 +
        ((⟨1 / 10 ^ 13, 0⟩ : PtR) - ⟨0, 0⟩).y ^ 2) = ((1 : ℝ) / 10 ^ 13) ^ 2 by
      simp]
    exact Real.sqrt_sq (by norm_num)
  have htot : totalLenR polyTiny = 1 / 10 ^ 13 := by
    simp only [totalLenR, polyTiny, cumLengthsR, cumFrom, hd,
      List.getLastD_cons]
    norm_num
  have hb : buildGradientOutline 1 (1 / 2) polyTiny = polyTiny := by
    rw [buildGradientOutline, if_neg (by simp [polyTiny]),
      if_pos (by rw [htot]; norm_num)]
  refine ⟨by rw [htot]; norm_num, by simp [polyTiny], hb, ?_⟩
  rw [hb]
  simp [polyTiny]

end Glyphforge
